import Mathlib

/-!
Verification of the resumable chunk-processing pipeline of the
`largeFileFeedback` repository (files `llm_large_file_processor.py`,
`integrated_processor.py`, `document_preprocessor.py`).

Modelling conventions of the shallow embedding:
* Python strings are modelled as `List Char` (`PyStr`), so that slicing and
  concatenation are ordinary list operations; `len` is `List.length`.
* Python floats are modelled as exact rationals (`ℚ`); the cost formulas of
  the source are pure arithmetic on them.
* Python dict/`dataclass` records become structures with the same field names.
* Fallible code (`raise`) returns `Except String α`.
* The LLM API client is an external collaborator; it is modelled as a function
  parameter `callLLM : Nat → ChunkInfo → Except String LLMResult` (the engine
  calls it once per chunk index).  The cooperative pause flag
  `self.pause_requested`, which an external caller may set at any time, is
  modelled as the boolean valuation `pause : Nat → Bool` observed at each
  chunk boundary `i`, exactly where the Python loop reads the flag.
* `input()` prompts and timestamps are passed in as parameters.
-/

/-- Python `str` modelled as a list of Unicode code points. -/
abbrev PyStr := List Char

/-- The separator `'\n\n'` used by `'\n\n'.join(texts)` in `_finalize_chunk`. -/
def SEP : PyStr := ['\n', '\n']

/-- Python negative-index slice `s[-k:]`: for `k = 0` it is the whole string
(`s[-0:] = s[0:] = s`), otherwise the trailing `min k (len s)` characters. -/
def pyTailSlice (s : PyStr) (k : Nat) : PyStr :=
  if k = 0 then s else s.drop (s.length - k)

/-- `'\n\n'.join(texts)` from `_finalize_chunk` (integrated_processor.py:161). -/
def joinSep : List PyStr → PyStr
  | [] => []
  | [t] => t
  | t :: u :: ts => t ++ SEP ++ joinSep (u :: ts)

/-- Per-million-token prices of one model (`ModelPricing.MODELS` values). -/
structure Pricing where
  input : ℚ
  output : ℚ
deriving DecidableEq

/-- The static pricing table `ModelPricing.MODELS`
(llm_large_file_processor.py:52-59).  The decimal prices 0.80, 2.50, 0.15 and
0.60 are written as the exact rationals 4/5, 5/2, 3/20 and 3/5. -/
def ModelPricing.MODELS : List (String × Pricing) :=
  [("claude-sonnet-4-5", ⟨3, 15⟩),
   ("claude-sonnet-4", ⟨3, 15⟩),
   ("claude-opus-4", ⟨15, 75⟩),
   ("claude-haiku-4", ⟨4/5, 4⟩),
   ("gpt-4o", ⟨5/2, 10⟩),
   ("gpt-4o-mini", ⟨3/20, 3/5⟩)]

/-- Dictionary lookup `cls.MODELS[model]` / membership `model in cls.MODELS`. -/
def lookupModel : List (String × Pricing) → String → Option Pricing
  | [], _ => none
  | (k, v) :: rest, m => if m = k then some v else lookupModel rest m

/-- The cost expression
`input_tokens / 1_000_000 * pricing.input + output_tokens / 1_000_000 * pricing.output`. -/
def rawCost (p : Pricing) (input_tokens output_tokens : Nat) : ℚ :=
  (input_tokens : ℚ) / 1000000 * p.input + (output_tokens : ℚ) / 1000000 * p.output

/-- `ModelPricing.estimate_cost` (llm_large_file_processor.py:61-70): raises
`ValueError` for a model absent from the table, otherwise returns the cost. -/
def ModelPricing.estimate_cost (model : String) (input_tokens output_tokens : Nat) :
    Except String ℚ :=
  match lookupModel ModelPricing.MODELS model with
  | none => .error ("unsupported model: " ++ model)
  | some pricing => .ok (rawCost pricing input_tokens output_tokens)

/-- `ModelPricing.compare_models` (llm_large_file_processor.py:72-78): the dict
comprehension calls `estimate_cost` for every key of the table, which never
fails there; `getD 0` is the corresponding total function. -/
def ModelPricing.compare_models (input_tokens output_tokens : Nat) :
    List (String × ℚ) :=
  ModelPricing.MODELS.map
    (fun p => (p.1, ((ModelPricing.estimate_cost p.1 input_tokens output_tokens).toOption).getD 0))

/-- Every entry of the table is found by `lookupModel` (the six keys are
pairwise distinct). -/
theorem lookupModel_of_mem (m : String) (p : Pricing)
    (h : (m, p) ∈ ModelPricing.MODELS) :
    lookupModel ModelPricing.MODELS m = some p := by
  fin_cases h <;> rfl

theorem rawCost_zero (p : Pricing) : rawCost p 0 0 = 0 := by
  simp [rawCost]

/-- C5: `estimateCost(model, inputTokens, outputTokens)` raises an UnknownModel
error if and only if `model` is absent from the pricing table; for every model
in the table it returns `inputTokens/1e6 * inputPrice + outputTokens/1e6 *
outputPrice`, and in particular `estimateCost(model, 0, 0) = 0` for every known
model. -/
theorem estimate_cost_spec (model : String) (input_tokens output_tokens : Nat) :
    ((∃ e, ModelPricing.estimate_cost model input_tokens output_tokens = .error e) ↔
      lookupModel ModelPricing.MODELS model = none)
    ∧ (∀ p, lookupModel ModelPricing.MODELS model = some p →
        ModelPricing.estimate_cost model input_tokens output_tokens =
          .ok ((input_tokens : ℚ) / 1000000 * p.input +
               (output_tokens : ℚ) / 1000000 * p.output))
    ∧ (∀ p, lookupModel ModelPricing.MODELS model = some p →
        ModelPricing.estimate_cost model 0 0 = .ok 0) := by
  refine ⟨?_, ?_, ?_⟩
  · constructor
    · rintro ⟨e, he⟩
      unfold ModelPricing.estimate_cost at he
      cases h : lookupModel ModelPricing.MODELS model with
      | none => rfl
      | some p => rw [h] at he; exact absurd he (by simp)
    · intro h
      exact ⟨_, by unfold ModelPricing.estimate_cost; rw [h]⟩
  · intro p hp
    unfold ModelPricing.estimate_cost
    rw [hp]
    rfl
  · intro p hp
    unfold ModelPricing.estimate_cost
    rw [hp]
    show Except.ok (rawCost p 0 0) = Except.ok 0
    rw [rawCost_zero]

/-- Witness for C5 at concrete inputs: `claude-opus-4` at 2M input / 1M output
tokens costs 2·15 + 1·75 = 105, `gpt-4o` at (0,0) costs 0, and an absent key
errors. -/
theorem estimate_cost_spec_witness :
    ModelPricing.estimate_cost "claude-opus-4" 2000000 1000000 = .ok 105
    ∧ ModelPricing.estimate_cost "gpt-4o" 0 0 = .ok 0
    ∧ (∃ e, ModelPricing.estimate_cost "not-a-model" 1 2 = .error e) := by
  refine ⟨?_, ?_, ?_⟩
  · have h := (estimate_cost_spec "claude-opus-4" 2000000 1000000).2.1 ⟨15, 75⟩ (by decide)
    rw [h]
    norm_num
  · exact (estimate_cost_spec "gpt-4o" 0 0).2.2 ⟨5/2, 10⟩ rfl
  · exact ((estimate_cost_spec "not-a-model" 1 2).1).2 rfl

/-- One extracted image with position info, as appended by `_create_smart_chunks`
(integrated_processor.py:139-143): `{'position': ..., 'data': ..., 'format': 'png'}`. -/
structure ImageRef where
  position : Nat
  data : PyStr
  format : String
deriving DecidableEq

/-- `ChunkInfo` dataclass (llm_large_file_processor.py:39-47). -/
structure ChunkInfo where
  index : Nat
  content_type : String
  text_content : Option PyStr
  image_data : Option (List ImageRef)
  token_estimate : Nat
  original_position : Nat
deriving DecidableEq

/-- `ExtractedContent.content_type` values (document_preprocessor.py:21). -/
inductive CKind where
  | text
  | image
deriving DecidableEq

/-- `ExtractedContent` dataclass (document_preprocessor.py:16-21). -/
structure ExtractedContent where
  position : Nat
  content_type : CKind
  data : PyStr
deriving DecidableEq

/-- `LargeFileProcessor.estimate_tokens` (llm_large_file_processor.py:97-104). -/
def estimate_tokens (text : PyStr) (images : Nat) : Nat :=
  text.length / 2 + images * 1500

/-- Loop body of `LargeFileProcessor.create_chunks`
(llm_large_file_processor.py:123-142), written with explicit fuel.  Each
iteration emits `content[start : start+chunk_size]` and continues at
`start + chunk_size - overlap`; for `overlap ≤ chunk_size` (the configuration
the code always uses; `overlap > chunk_size` would not even terminate in
Python once `start` goes negative) the natural subtraction agrees with the
Python integer arithmetic. -/
def create_chunks_loop (content : PyStr) (chunk_size overlap : Nat) :
    Nat → Nat → Nat → List ChunkInfo
  | 0, _, _ => []
  | fuel + 1, start, index =>
    if start < content.length then
      let chunk_text := (content.drop start).take chunk_size
      ⟨index, "text", some chunk_text, none, estimate_tokens chunk_text 0, start⟩
        :: create_chunks_loop content chunk_size overlap fuel
             (start + chunk_size - overlap) (index + 1)
    else []

/-- `LargeFileProcessor.create_chunks` (llm_large_file_processor.py:106-143).
`content.length + 1` units of fuel are enough because every iteration with
`overlap < chunk_size` advances `start` by at least one. -/
def create_chunks (content : PyStr) (chunk_size overlap : Nat) : List ChunkInfo :=
  create_chunks_loop content chunk_size overlap (content.length + 1) 0 0

/-- `model_comparison` payload of `estimate_remaining_cost`. -/
structure CostInfo where
  remaining_chunks : Nat
  input_tokens : Nat
  output_tokens : Nat
  estimated_cost : ℚ
  model_comparison : List (String × ℚ)
deriving DecidableEq

/-- `LargeFileProcessor.estimate_remaining_cost`
(llm_large_file_processor.py:207-228): sums token estimates over
`chunks[start_index:]`, multiplies the remaining chunk count by
`output_tokens_per_chunk`, and reports the cost for the requested model plus
the comparison table.  The `estimate_cost` call can raise (unknown model). -/
def estimate_remaining_cost (chunks : List ChunkInfo) (start_index : Nat)
    (model : String) (output_tokens_per_chunk : Nat) : Except String CostInfo :=
  let remaining := chunks.drop start_index
  let total_input := (remaining.map (fun c => c.token_estimate)).sum
  let total_output := remaining.length * output_tokens_per_chunk
  match ModelPricing.estimate_cost model total_input total_output with
  | .error e => .error e
  | .ok cost =>
      .ok ⟨remaining.length, total_input, total_output, cost,
           ModelPricing.compare_models total_input total_output⟩

theorem compare_models_zero :
    ModelPricing.compare_models 0 0 = ModelPricing.MODELS.map (fun p => (p.1, (0 : ℚ))) := by
  unfold ModelPricing.compare_models
  apply List.map_congr_left
  intro p hp
  have h := lookupModel_of_mem p.1 p.2 hp
  have hz := (estimate_cost_spec p.1 0 0).2.2 p.2 h
  rw [hz]
  rfl

/-- C10: for every chunk list and every `startIndex` at or past the end of the
list, and for any model present in the pricing table (otherwise
`estimate_cost` raises), `estimate_remaining_cost` returns `remaining_chunks =
0`, `input_tokens = 0`, `output_tokens = 0`, `estimated_cost = 0`, and a
`model_comparison` mapping every model of the table to cost 0. -/
theorem estimate_remaining_cost_exhausted (chunks : List ChunkInfo)
    (start_index : Nat) (model : String) (output_tokens_per_chunk : Nat)
    (p : Pricing)
    (hstart : chunks.length ≤ start_index)
    (hmodel : lookupModel ModelPricing.MODELS model = some p) :
    estimate_remaining_cost chunks start_index model output_tokens_per_chunk =
      .ok ⟨0, 0, 0, 0, ModelPricing.MODELS.map (fun q => (q.1, (0 : ℚ)))⟩ := by
  have hdrop : chunks.drop start_index = [] := List.drop_eq_nil_of_le hstart
  have hz := (estimate_cost_spec model 0 0).2.2 p hmodel
  unfold estimate_remaining_cost
  rw [hdrop]
  simp only [List.map_nil, List.sum_nil, List.length_nil, Nat.zero_mul]
  rw [hz, compare_models_zero]

/-- Witness for C10: the model `claude-haiku-4` on an already-exhausted
two-chunk list (startIndex = 5 ≥ 2). -/
theorem estimate_remaining_cost_exhausted_witness :
    estimate_remaining_cost
        [⟨0, "text", some ['a'], none, 7, 0⟩, ⟨1, "text", some ['b'], none, 9, 1⟩]
        5 "claude-haiku-4" 1000 =
      .ok ⟨0, 0, 0, 0, ModelPricing.MODELS.map (fun q => (q.1, (0 : ℚ)))⟩ :=
  estimate_remaining_cost_exhausted _ 5 "claude-haiku-4" 1000 ⟨4/5, 4⟩
    (by decide) rfl

/-- `IntegratedProcessor._finalize_chunk` (integrated_processor.py:155-186).
Python truthiness: `texts`/`images` are tested as lists (non-empty), while
`text_content` and `image_data` are tested as `None`-or-empty values, so an
empty joined text contributes neither to `content_type` nor to the token
estimate. -/
def finalize_chunk (index : Nat) (texts : List PyStr) (images : List ImageRef)
    (start_position : Nat) : ChunkInfo :=
  let text_content : Option PyStr := if texts.isEmpty then none else some (joinSep texts)
  let image_data : Option (List ImageRef) := if images.isEmpty then none else some images
  let tcTruthy : Bool :=
    match text_content with
    | some s => !s.isEmpty
    | none => false
  let idTruthy : Bool :=
    match image_data with
    | some l => !l.isEmpty
    | none => false
  let content_type : String :=
    if tcTruthy && idTruthy then "mixed" else if idTruthy then "image" else "text"
  let token_estimate : Nat :=
    (if tcTruthy then (joinSep texts).length / 2 else 0) +
    (if idTruthy then images.length * 1500 else 0)
  ⟨index, content_type, text_content, image_data, token_estimate, start_position⟩

/-- The mutable locals of the `_create_smart_chunks` loop
(integrated_processor.py:105-110). -/
structure ChunkAcc where
  chunks : List ChunkInfo
  current_text : List PyStr
  current_images : List ImageRef
  current_size : Nat
  chunk_index : Nat
  start_position : Nat
deriving DecidableEq

/-- One iteration of the `for content in contents` loop of
`_create_smart_chunks` (integrated_processor.py:112-145).  On a text unit that
would overflow a non-empty buffer the current chunk is closed, the next buffer
is seeded with `current_text[-1][-overlap:]` (the tail of the **last
accumulated unit**) and the image list is cleared; an image unit only adds
3000 to the running size. -/
def smartStep (chunk_size overlap : Nat) (st : ChunkAcc) (content : ExtractedContent) :
    ChunkAcc :=
  match content.content_type with
  | CKind.text =>
      let text_size := content.data.length
      let st1 :=
        if chunk_size < st.current_size + text_size ∧ st.current_text ≠ [] then
          let overlap_text := pyTailSlice (st.current_text.getLastD []) overlap
          { chunks := st.chunks ++
              [finalize_chunk st.chunk_index st.current_text st.current_images
                st.start_position],
            current_text := [overlap_text],
            current_images := [],
            current_size := overlap_text.length,
            chunk_index := st.chunk_index + 1,
            start_position := content.position }
        else st
      { st1 with
          current_text := st1.current_text ++ [content.data],
          current_size := st1.current_size + text_size }
  | CKind.image =>
      { st with
          current_images := st.current_images ++ [⟨content.position, content.data, "png"⟩],
          current_size := st.current_size + 3000 }

/-- The trailing `if current_text or current_images` of `_create_smart_chunks`
(integrated_processor.py:147-151). -/
def smartFinish (st : ChunkAcc) : List ChunkInfo :=
  if st.current_text ≠ [] ∨ st.current_images ≠ [] then
    st.chunks ++
      [finalize_chunk st.chunk_index st.current_text st.current_images st.start_position]
  else st.chunks

/-- `IntegratedProcessor._create_smart_chunks` (integrated_processor.py:100-153). -/
def create_smart_chunks (contents : List ExtractedContent) (chunk_size overlap : Nat) :
    List ChunkInfo :=
  smartFinish (contents.foldl (smartStep chunk_size overlap) ⟨[], [], [], 0, 0, 0⟩)

/-- `DocumentPreprocessor._extract_from_text` (document_preprocessor.py:269-278):
a plain text file becomes a single text unit at position 0 holding the whole
file content. -/
def extract_from_text (content : PyStr) : List ExtractedContent :=
  [⟨0, CKind.text, content⟩]

/-- C9 (amended): for a text file whose content is exactly `chunkSizeChars`
characters, the smart Chunk Builder used by the engine pipeline produces
exactly one chunk with `sourcePosition = 0` (the extractor returns one unit,
which never splits because the overflow test requires a non-empty buffer). -/
theorem exact_size_single_chunk (content : PyStr) (chunk_size overlap : Nat)
    (hlen : content.length = chunk_size) :
    create_smart_chunks (extract_from_text content) chunk_size overlap =
      [finalize_chunk 0 [content] [] 0]
    ∧ (finalize_chunk 0 [content] [] 0).original_position = 0 := by
  constructor
  · unfold create_smart_chunks extract_from_text
    simp only [List.foldl_cons, List.foldl_nil]
    have hstep : smartStep chunk_size overlap ⟨[], [], [], 0, 0, 0⟩ ⟨0, CKind.text, content⟩ =
        ⟨[], [content], [], content.length, 0, 0⟩ := by
      unfold smartStep
      simp
    rw [hstep]
    unfold smartFinish
    simp
  · rfl

/-- Witness for C9 (amended) on the four-character file `"abcd"` with
`chunk_size = 4`, `overlap = 1`. -/
theorem exact_size_single_chunk_witness :
    create_smart_chunks (extract_from_text "abcd".toList) 4 1 =
      [finalize_chunk 0 ["abcd".toList] [] 0]
    ∧ (finalize_chunk 0 ["abcd".toList] [] 0).original_position = 0 :=
  exact_size_single_chunk "abcd".toList 4 1 (by decide)

/-- Counterexample for C9 as stated: the basic splitter
`LargeFileProcessor.create_chunks` (the one `initialize_processing` uses to
count chunks) applied to a file of exactly `chunk_size = 4` characters with
`overlap = 1` produces 2 chunks, not 1 — after emitting the whole content it
restarts at `end - overlap = 3 < 4` and emits a second chunk, at this
configuration consisting only of the trailing overlap character at position
3.  (Other configurations emit even more chunks; this one instance already
refutes the claim.) -/
theorem exact_size_two_chunks_cex :
    ("abcd".toList : PyStr).length = 4
    ∧ (create_chunks "abcd".toList 4 1).length = 2
    ∧ ¬ (create_chunks "abcd".toList 4 1).length = 1
    ∧ (create_chunks "abcd".toList 4 1).map
        (fun c => (c.text_content, c.original_position)) =
      [(some ['a', 'b', 'c', 'd'], 0), (some ['d'], 3)] := by
  refine ⟨by decide, ?_, ?_, ?_⟩ <;> decide

/-- One entry appended to `state.results` per processed chunk
(integrated_processor.py:294-300). -/
structure ResultEntry where
  chunk_index : Nat
  response : String
  input_tokens : Nat
  output_tokens : Nat
  cost : ℚ
deriving DecidableEq

/-- `ProcessingState` dataclass (llm_large_file_processor.py:18-29). -/
structure ProcessingState where
  file_path : String
  file_hash : String
  total_chunks : Nat
  processed_chunks : Nat
  current_model : String
  total_cost : ℚ
  results : List ResultEntry
  created_at : String
  updated_at : String
deriving DecidableEq

/-- What `_call_llm_api` returns for one chunk (integrated_processor.py:342-347):
response text plus token usage and cost. -/
structure LLMResult where
  response : String
  input_tokens : Nat
  output_tokens : Nat
  cost : ℚ
deriving DecidableEq

/-- How one invocation of `_process_chunks` ends: the loop ran through
(`completed`), the pause flag stopped it before chunk `i` (`paused`), or the
LLM call for chunk `i` raised and the exception was re-raised (`failed`). -/
inductive RunOutcome where
  | completed
  | paused (i : Nat)
  | failed (i : Nat) (msg : String)
deriving DecidableEq

/-- Result of one engine invocation: the state at exit (which is exactly what
`save_state` persists on every exit path of `_process_chunks`), the chunk
indices submitted to the LLM client, in order, and the outcome. -/
structure RunResult where
  state : ProcessingState
  submitted : List Nat
  outcome : RunOutcome
deriving DecidableEq

/-- The successful-chunk state update of `_process_chunks`
(integrated_processor.py:293-304): append the result entry, set
`processed_chunks = i + 1`, add the cost. -/
def applyResult (s : ProcessingState) (i : Nat) (r : LLMResult) : ProcessingState :=
  { s with
      results := s.results ++ [⟨i, r.response, r.input_tokens, r.output_tokens, r.cost⟩],
      processed_chunks := i + 1,
      total_cost := s.total_cost + r.cost }

/-- The index sequence `range(start, start + k)` of the Python `for` loop. -/
def idxList : Nat → Nat → List Nat
  | _, 0 => []
  | start, k + 1 => start :: idxList (start + 1) k

/-- The `for i in range(start_index, len(chunks))` loop of `_process_chunks`
(integrated_processor.py:276-320), one step per pending index: observe the
pause flag at the chunk boundary; else submit chunk `i` to the LLM client; on
success update the state and continue, on an exception stop with the state
unchanged by chunk `i` (the `except` branch saves and re-raises).  The
`chunks[i]?` lookup is always `some` for the index lists the engine builds;
the `none` branch is unreachable there. -/
def processGo (pause : Nat → Bool) (callLLM : Nat → ChunkInfo → Except String LLMResult)
    (chunks : List ChunkInfo) : List Nat → ProcessingState → RunResult
  | [], s => ⟨s, [], .completed⟩
  | i :: rest, s =>
    if pause i then ⟨s, [], .paused i⟩
    else
      match chunks[i]? with
      | none => ⟨s, [], .completed⟩
      | some chunk =>
        match callLLM i chunk with
        | .error e => ⟨s, [i], .failed i e⟩
        | .ok r =>
          let rr := processGo pause callLLM chunks rest (applyResult s i r)
          ⟨rr.state, i :: rr.submitted, rr.outcome⟩

/-- `IntegratedProcessor._process_chunks` (integrated_processor.py:263-326):
iterate chunk indices from `state.processed_chunks` to `len(chunks) - 1`. -/
def process_chunks (pause : Nat → Bool)
    (callLLM : Nat → ChunkInfo → Except String LLMResult)
    (chunks : List ChunkInfo) (s : ProcessingState) : RunResult :=
  processGo pause callLLM chunks
    (idxList s.processed_chunks (chunks.length - s.processed_chunks)) s

/-- The result entries a sequence of successful LLM calls appends, in order. -/
def collectEntries (callLLM : Nat → ChunkInfo → Except String LLMResult)
    (chunks : List ChunkInfo) : List Nat → List ResultEntry
  | [] => []
  | i :: rest =>
    match chunks[i]? with
    | none => []
    | some chunk =>
      match callLLM i chunk with
      | .ok r => ⟨i, r.response, r.input_tokens, r.output_tokens, r.cost⟩
          :: collectEntries callLLM chunks rest
      | .error _ => []

/-- Total cost of a list of result entries. -/
def sumCosts (l : List ResultEntry) : ℚ :=
  (l.map (fun e => e.cost)).sum

theorem mem_idxList (j : Nat) : ∀ (k start : Nat), j ∈ idxList start k ↔ start ≤ j ∧ j < start + k := by
  intro k
  induction k with
  | zero => intro start; simp [idxList]
  | succ n ih =>
      intro start
      rw [idxList]
      simp only [List.mem_cons, ih (start + 1)]
      omega

theorem idxList_split (k m : Nat) : ∀ start : Nat,
    idxList start (k + m) = idxList start k ++ idxList (start + k) m := by
  induction k with
  | zero => intro start; simp [idxList]
  | succ n ih =>
      intro start
      have h1 : n + 1 + m = (n + m) + 1 := by omega
      rw [h1, idxList, idxList, ih (start + 1)]
      simp only [List.cons_append, List.append_cancel_left_eq]
      have h2 : start + 1 + n = start + (n + 1) := by omega
      rw [h2]

theorem processGo_submitted_subset (pause : Nat → Bool)
    (callLLM : Nat → ChunkInfo → Except String LLMResult) (chunks : List ChunkInfo) :
    ∀ (l : List Nat) (s : ProcessingState) (j : Nat),
      j ∈ (processGo pause callLLM chunks l s).submitted → j ∈ l := by
  intro l
  induction l with
  | nil => intro s j h; simp [processGo] at h
  | cons i rest ih =>
      intro s j h
      rw [processGo] at h
      by_cases hp : pause i
      · simp [hp] at h
      · simp only [hp, Bool.false_eq_true, if_false] at h
        cases hc : chunks[i]? with
        | none => simp only [hc] at h; simp at h
        | some chunk =>
            simp only [hc] at h
            cases he : callLLM i chunk with
            | error e => simp only [he] at h; simp at h; simp [h]
            | ok r =>
                simp only [he, List.mem_cons] at h
                rcases h with h | h
                · simp [h]
                · exact List.mem_cons_of_mem _ (ih _ _ h)

theorem processGo_paused_flag (pause : Nat → Bool)
    (callLLM : Nat → ChunkInfo → Except String LLMResult) (chunks : List ChunkInfo) :
    ∀ (l : List Nat) (s : ProcessingState) (j : Nat),
      (processGo pause callLLM chunks l s).outcome = .paused j → pause j = true := by
  intro l
  induction l with
  | nil => intro s j h; simp [processGo] at h
  | cons i rest ih =>
      intro s j h
      rw [processGo] at h
      by_cases hp : pause i
      · simp only [hp, if_true] at h
        cases h
        exact hp
      · simp only [hp, Bool.false_eq_true, if_false] at h
        cases hc : chunks[i]? with
        | none => simp only [hc] at h; simp at h
        | some chunk =>
            simp only [hc] at h
            cases he : callLLM i chunk with
            | error e => simp only [he] at h; simp at h
            | ok r => simp only [he] at h; exact ih _ _ h

theorem processGo_success (pause : Nat → Bool)
    (callLLM : Nat → ChunkInfo → Except String LLMResult) (chunks : List ChunkInfo) :
    ∀ (k start : Nat) (s : ProcessingState),
      s.processed_chunks = start →
      start + k ≤ chunks.length →
      (∀ j, start ≤ j → j < start + k → pause j = false) →
      (∀ j c, start ≤ j → j < start + k → chunks[j]? = some c → (callLLM j c).isOk = true) →
      processGo pause callLLM chunks (idxList start k) s =
        ⟨{ s with
            processed_chunks := start + k,
            results := s.results ++ collectEntries callLLM chunks (idxList start k),
            total_cost := s.total_cost +
              sumCosts (collectEntries callLLM chunks (idxList start k)) },
          idxList start k, .completed⟩ := by
  intro k
  induction k with
  | zero =>
      intro start s hstart hlen hpause hok
      subst hstart
      simp [idxList, processGo, collectEntries, sumCosts]
  | succ n ih =>
      intro start s hstart hlen hpause hok
      have hlt : start < chunks.length := by omega
      have hc : chunks[start]? = some (chunks.get ⟨start, hlt⟩) := by
        simp [List.getElem?_eq_getElem hlt]
      have hp : pause start = false := hpause start (Nat.le_refl _) (by omega)
      have hoks : (callLLM start (chunks.get ⟨start, hlt⟩)).isOk = true :=
        hok start _ (Nat.le_refl _) (by omega) hc
      cases he : callLLM start (chunks.get ⟨start, hlt⟩) with
      | error e =>
          rw [he] at hoks
          simp [Except.isOk, Except.toBool] at hoks
      | ok r =>
          have hrec := ih (start + 1) (applyResult s start r) rfl (by omega)
            (fun j h1 h2 => hpause j (by omega) (by omega))
            (fun j c h1 h2 hcj => hok j c (by omega) (by omega) hcj)
          have hn : start + 1 + n = start + (n + 1) := by omega
          rw [hn] at hrec
          rw [idxList, processGo]
          simp only [hp, Bool.false_eq_true, if_false, hc, he, hrec]
          have hCE : collectEntries callLLM chunks (start :: idxList (start + 1) n) =
              ⟨start, r.response, r.input_tokens, r.output_tokens, r.cost⟩ ::
                collectEntries callLLM chunks (idxList (start + 1) n) := by
            rw [collectEntries]
            simp only [hc, he]
          rw [hCE]
          simp [applyResult, sumCosts, add_assoc]

theorem collectEntries_map_index (callLLM : Nat → ChunkInfo → Except String LLMResult)
    (chunks : List ChunkInfo) :
    ∀ (k start : Nat),
      start + k ≤ chunks.length →
      (∀ j c, start ≤ j → j < start + k → chunks[j]? = some c → (callLLM j c).isOk = true) →
      (collectEntries callLLM chunks (idxList start k)).map (fun e => e.chunk_index) =
        idxList start k := by
  intro k
  induction k with
  | zero => intro start _ _; simp [idxList, collectEntries]
  | succ n ih =>
      intro start hlen hok
      have hlt : start < chunks.length := by omega
      have hc : chunks[start]? = some (chunks.get ⟨start, hlt⟩) := by
        simp [List.getElem?_eq_getElem hlt]
      have hoks : (callLLM start (chunks.get ⟨start, hlt⟩)).isOk = true :=
        hok start _ (Nat.le_refl _) (by omega) hc
      cases he : callLLM start (chunks.get ⟨start, hlt⟩) with
      | error e =>
          rw [he] at hoks
          simp [Except.isOk, Except.toBool] at hoks
      | ok r =>
          rw [idxList, collectEntries]
          simp only [hc, he, List.map_cons]
          rw [ih (start + 1) (by omega)
            (fun j c h1 h2 hcj => hok j c (by omega) (by omega) hcj)]

theorem processGo_append (pause : Nat → Bool)
    (callLLM : Nat → ChunkInfo → Except String LLMResult) (chunks : List ChunkInfo) :
    ∀ (l1 l2 : List Nat) (s : ProcessingState),
      (∀ i ∈ l1, i < chunks.length) →
      (processGo pause callLLM chunks l1 s).outcome = .completed →
      processGo pause callLLM chunks (l1 ++ l2) s =
        ⟨(processGo pause callLLM chunks l2 (processGo pause callLLM chunks l1 s).state).state,
          (processGo pause callLLM chunks l1 s).submitted ++
            (processGo pause callLLM chunks l2
              (processGo pause callLLM chunks l1 s).state).submitted,
          (processGo pause callLLM chunks l2
            (processGo pause callLLM chunks l1 s).state).outcome⟩ := by
  intro l1
  induction l1 with
  | nil => intro l2 s _ _; simp [processGo]
  | cons i rest ih =>
      intro l2 s hin hout
      have hlt : i < chunks.length := hin i (List.mem_cons_self i rest)
      have hc : chunks[i]? = some (chunks.get ⟨i, hlt⟩) := by
        simp [List.getElem?_eq_getElem hlt]
      by_cases hp : pause i
      · rw [processGo] at hout
        simp [hp] at hout
      · rw [processGo] at hout
        simp only [hp, Bool.false_eq_true, if_false, hc] at hout
        cases he : callLLM i (chunks.get ⟨i, hlt⟩) with
        | error e => simp only [he] at hout; simp at hout
        | ok r =>
            simp only [he] at hout
            have hrec := ih l2 (applyResult s i r)
              (fun m hm => hin m (List.mem_cons_of_mem _ hm)) hout
            rw [List.cons_append, processGo]
            simp only [hp, Bool.false_eq_true, if_false, hc, he, hrec]
            rw [processGo]
            simp only [hp, Bool.false_eq_true, if_false, hc, he]
            simp

/-- C1: re-invoking `_process_chunks` on a state with `processedChunks = k`
against a chunk list of length `n ≥ k` submits exactly chunks `k .. n-1` to
the LLM client (when no pause intervenes and every call succeeds), never
submits a chunk with index `< k` (whatever the pause flag and the client do),
only appends to `results`, and leaves the first `k` entries of
`state.results` unchanged.  The hypothesis `results.length = k` is the
documented state invariant. -/
theorem resume_idempotent (pause : Nat → Bool)
    (callLLM : Nat → ChunkInfo → Except String LLMResult)
    (chunks : List ChunkInfo) (s : ProcessingState) (k : Nat)
    (hk : s.processed_chunks = k) (hkn : k ≤ chunks.length)
    (hres : s.results.length = k)
    (hpause : ∀ j, pause j = false)
    (hok : ∀ j c, chunks[j]? = some c → (callLLM j c).isOk = true) :
    (process_chunks pause callLLM chunks s).submitted = idxList k (chunks.length - k)
    ∧ (∀ (pause2 : Nat → Bool) (call2 : Nat → ChunkInfo → Except String LLMResult)
        (j : Nat), j ∈ (process_chunks pause2 call2 chunks s).submitted → k ≤ j)
    ∧ (process_chunks pause callLLM chunks s).state.results =
        s.results ++ collectEntries callLLM chunks (idxList k (chunks.length - k))
    ∧ (process_chunks pause callLLM chunks s).state.results.take k = s.results := by
  have hrun := processGo_success pause callLLM chunks (chunks.length - k) k s hk
    (by omega) (fun j _ _ => hpause j) (fun j c _ _ hcj => hok j c hcj)
  refine ⟨?_, ?_, ?_, ?_⟩
  · rw [process_chunks, hk, hrun]
  · intro pause2 call2 j hj
    rw [process_chunks, hk] at hj
    have hmem := processGo_submitted_subset pause2 call2 chunks _ s j hj
    rw [mem_idxList] at hmem
    exact hmem.1
  · rw [process_chunks, hk, hrun]
  · rw [process_chunks, hk, hrun]
    show (s.results ++ collectEntries callLLM chunks (idxList k (chunks.length - k))).take k = s.results
    rw [← hres, List.take_left]

/-- Concrete two-chunk list, states and clients used by the engine witnesses. -/
def wChunkA : ChunkInfo := ⟨0, "text", some ['a'], none, 3, 0⟩

def wChunkB : ChunkInfo := ⟨1, "text", some ['b'], none, 4, 1⟩

def wChunks : List ChunkInfo := [wChunkA, wChunkB]

def wState0 : ProcessingState :=
  ⟨"f.txt", "h", 2, 0, "claude-haiku-4", 0, [], "c", "u"⟩

def wState1 : ProcessingState :=
  ⟨"f.txt", "h", 2, 1, "claude-haiku-4", 0, [⟨0, "r0", 1, 1, 0⟩], "c", "u"⟩

def wCallOk : Nat → ChunkInfo → Except String LLMResult :=
  fun _ _ => .ok ⟨"resp", 2, 3, 0⟩

def wCallFail : Nat → ChunkInfo → Except String LLMResult :=
  fun i _ => if i = 1 then .error "boom" else .ok ⟨"resp", 2, 3, 0⟩

/-- Witness for C1: resuming the two-chunk list at `processedChunks = 1`
submits exactly chunk 1 and keeps the recorded entry for chunk 0. -/
theorem resume_idempotent_witness :
    (process_chunks (fun _ => false) wCallOk wChunks wState1).submitted = idxList 1 1
    ∧ (process_chunks (fun _ => false) wCallOk wChunks wState1).state.results.take 1 =
        wState1.results :=
  ⟨(resume_idempotent (fun _ => false) wCallOk wChunks wState1 1 rfl (by decide) rfl
      (fun _ => rfl) (fun _ _ _ => rfl)).1,
   (resume_idempotent (fun _ => false) wCallOk wChunks wState1 1 rfl (by decide) rfl
      (fun _ => rfl) (fun _ _ _ => rfl)).2.2.2⟩

/-- C6: if the LLM call for chunk `j` raises (and the calls before it since
`processedChunks` succeed, with the pause flag unset), `_process_chunks` stops
with outcome `failed j e`, submitting `j` exactly once and nothing after it,
and the exit state — the one `save_state` persists in the `except` branch — is
exactly the state before chunk `j`: `processed_chunks = j`, only the entries
of the chunks before `j` appended (second conjunct), and `total_cost` raised
only by those entries. -/
theorem llm_error_checkpoint (pause : Nat → Bool)
    (callLLM : Nat → ChunkInfo → Except String LLMResult)
    (chunks : List ChunkInfo) (s : ProcessingState) (j : Nat) (cj : ChunkInfo)
    (e : String)
    (hpause : ∀ m, pause m = false)
    (hstart : s.processed_chunks ≤ j)
    (hcj : chunks[j]? = some cj)
    (hok : ∀ m c, s.processed_chunks ≤ m → m < j → chunks[m]? = some c →
      (callLLM m c).isOk = true)
    (herr : callLLM j cj = .error e) :
    process_chunks pause callLLM chunks s =
      ⟨{ s with
          processed_chunks := j,
          results := s.results ++ collectEntries callLLM chunks
            (idxList s.processed_chunks (j - s.processed_chunks)),
          total_cost := s.total_cost + sumCosts (collectEntries callLLM chunks
            (idxList s.processed_chunks (j - s.processed_chunks))) },
        idxList s.processed_chunks (j - s.processed_chunks) ++ [j],
        .failed j e⟩
    ∧ (collectEntries callLLM chunks
        (idxList s.processed_chunks (j - s.processed_chunks))).map
          (fun en => en.chunk_index) =
        idxList s.processed_chunks (j - s.processed_chunks) := by
  have hjlen : j < chunks.length := by
    by_contra hge
    rw [List.getElem?_eq_none (by omega)] at hcj
    exact absurd hcj (by simp)
  have hsplitn : chunks.length - s.processed_chunks =
      (j - s.processed_chunks) + (chunks.length - j) := by omega
  have hstj : s.processed_chunks + (j - s.processed_chunks) = j := by omega
  have hrun := processGo_success pause callLLM chunks (j - s.processed_chunks)
    s.processed_chunks s rfl (by omega) (fun m _ _ => hpause m)
    (fun m c h1 h2 hcm => hok m c h1 (by omega) hcm)
  rw [hstj] at hrun
  have hnj : chunks.length - j = (chunks.length - j - 1) + 1 := by omega
  constructor
  · rw [process_chunks, hsplitn, idxList_split, hstj]
    rw [processGo_append pause callLLM chunks _ _ s
      (fun m hm => by rw [mem_idxList] at hm; omega) (by rw [hrun])]
    rw [hrun]
    rw [hnj, idxList, processGo]
    simp only [hpause j, Bool.false_eq_true, if_false, hcj, herr]
  · exact collectEntries_map_index callLLM chunks (j - s.processed_chunks)
      s.processed_chunks (by omega) (fun m c h1 h2 hcm => hok m c h1 (by omega) hcm)

/-- Witness for C6: with `processedChunks = 1` and a client that raises on
chunk 1, the run fails at chunk 1 and persists the state unchanged. -/
theorem llm_error_checkpoint_witness :
    process_chunks (fun _ => false) wCallFail wChunks wState1 =
      ⟨{ wState1 with
          processed_chunks := 1,
          results := wState1.results ++ collectEntries wCallFail wChunks (idxList 1 0),
          total_cost := wState1.total_cost +
            sumCosts (collectEntries wCallFail wChunks (idxList 1 0)) },
        idxList 1 0 ++ [1], .failed 1 "boom"⟩ :=
  (llm_error_checkpoint (fun _ => false) wCallFail wChunks wState1 1 wChunkB "boom"
    (fun _ => rfl) (Nat.le_refl 1) rfl
    (fun m c h1 h2 _ => absurd (Nat.lt_of_lt_of_le h2 h1) (Nat.lt_irrefl m)) rfl).1

/-- C7: the pause flag is observed only at chunk boundaries.  If the flag is
unset before boundary `j` and set at `j` (with the calls before `j`
succeeding), the run stops with outcome `paused j` — not `failed` — after
persisting a state in which every chunk whose LLM call was started (exactly
chunks `processedChunks .. j-1`, second conjunct) is completed and recorded;
chunk `j` itself is never submitted (third conjunct).  Conversely (fourth
conjunct) a run only ever stops in `paused` at a boundary where the flag is
actually set. -/
theorem pause_at_boundary (pause : Nat → Bool)
    (callLLM : Nat → ChunkInfo → Except String LLMResult)
    (chunks : List ChunkInfo) (s : ProcessingState) (j : Nat)
    (hstart : s.processed_chunks ≤ j) (hjlen : j < chunks.length)
    (hbefore : ∀ m, s.processed_chunks ≤ m → m < j → pause m = false)
    (hpj : pause j = true)
    (hok : ∀ m c, s.processed_chunks ≤ m → m < j → chunks[m]? = some c →
      (callLLM m c).isOk = true) :
    process_chunks pause callLLM chunks s =
      ⟨{ s with
          processed_chunks := j,
          results := s.results ++ collectEntries callLLM chunks
            (idxList s.processed_chunks (j - s.processed_chunks)),
          total_cost := s.total_cost + sumCosts (collectEntries callLLM chunks
            (idxList s.processed_chunks (j - s.processed_chunks))) },
        idxList s.processed_chunks (j - s.processed_chunks),
        .paused j⟩
    ∧ (collectEntries callLLM chunks
        (idxList s.processed_chunks (j - s.processed_chunks))).map
          (fun en => en.chunk_index) =
        idxList s.processed_chunks (j - s.processed_chunks)
    ∧ ¬ j ∈ (process_chunks pause callLLM chunks s).submitted
    ∧ (∀ (pause2 : Nat → Bool) (s2 : ProcessingState) (j2 : Nat),
        (process_chunks pause2 callLLM chunks s2).outcome = .paused j2 →
        pause2 j2 = true) := by
  have hsplitn : chunks.length - s.processed_chunks =
      (j - s.processed_chunks) + (chunks.length - j) := by omega
  have hstj : s.processed_chunks + (j - s.processed_chunks) = j := by omega
  have hrun := processGo_success pause callLLM chunks (j - s.processed_chunks)
    s.processed_chunks s rfl (by omega) (fun m h1 h2 => hbefore m h1 (by omega))
    (fun m c h1 h2 hcm => hok m c h1 (by omega) hcm)
  rw [hstj] at hrun
  have hnj : chunks.length - j = (chunks.length - j - 1) + 1 := by omega
  have hmain : process_chunks pause callLLM chunks s =
      ⟨{ s with
          processed_chunks := j,
          results := s.results ++ collectEntries callLLM chunks
            (idxList s.processed_chunks (j - s.processed_chunks)),
          total_cost := s.total_cost + sumCosts (collectEntries callLLM chunks
            (idxList s.processed_chunks (j - s.processed_chunks))) },
        idxList s.processed_chunks (j - s.processed_chunks),
        .paused j⟩ := by
    rw [process_chunks, hsplitn, idxList_split, hstj]
    rw [processGo_append pause callLLM chunks _ _ s
      (fun m hm => by rw [mem_idxList] at hm; omega) (by rw [hrun])]
    rw [hrun]
    rw [hnj, idxList, processGo]
    simp only [hpj, if_true, List.append_nil]
  refine ⟨hmain, ?_, ?_, ?_⟩
  · exact collectEntries_map_index callLLM chunks (j - s.processed_chunks)
      s.processed_chunks (by omega) (fun m c h1 h2 hcm => hok m c h1 (by omega) hcm)
  · rw [hmain]
    show ¬ j ∈ idxList s.processed_chunks (j - s.processed_chunks)
    rw [mem_idxList]
    omega
  · intro pause2 s2 j2 hout
    exact processGo_paused_flag pause2 callLLM chunks _ s2 j2 hout

/-- Witness for C7: pausing at boundary 1 of the two-chunk list records chunk 0
and never submits chunk 1. -/
theorem pause_at_boundary_witness :
    process_chunks (fun i => i == 1) wCallOk wChunks wState0 =
      ⟨{ wState0 with
          processed_chunks := 1,
          results := wState0.results ++ collectEntries wCallOk wChunks (idxList 0 1),
          total_cost := wState0.total_cost +
            sumCosts (collectEntries wCallOk wChunks (idxList 0 1)) },
        idxList 0 1, .paused 1⟩
    ∧ ¬ 1 ∈ (process_chunks (fun i => i == 1) wCallOk wChunks wState0).submitted :=
  ⟨(pause_at_boundary (fun i => i == 1) wCallOk wChunks wState0 1 (Nat.zero_le 1)
      (by decide)
      (fun m _ h2 => by have hm : m = 0 := Nat.lt_one_iff.mp h2; subst hm; rfl)
      rfl (fun _ _ _ _ _ => rfl)).1,
   (pause_at_boundary (fun i => i == 1) wCallOk wChunks wState0 1 (Nat.zero_le 1)
      (by decide)
      (fun m _ h2 => by have hm : m = 0 := Nat.lt_one_iff.mp h2; subst hm; rfl)
      rfl (fun _ _ _ _ _ => rfl)).2.2.1⟩

/-- The documented `ProcessingState` invariant: `results.length ==
processedChunks` and `results[i].chunkIndex == i` for every `i`. -/
def stateInv (s : ProcessingState) : Prop :=
  s.results.length = s.processed_chunks
  ∧ ∀ i (h : i < s.results.length), (s.results.get ⟨i, h⟩).chunk_index = i

theorem stateInv_applyResult (s : ProcessingState) (i : Nat) (r : LLMResult)
    (hinv : stateInv s) (hi : s.processed_chunks = i) :
    stateInv (applyResult s i r) := by
  obtain ⟨hlen, hget⟩ := hinv
  constructor
  · simp [applyResult, hlen, hi]
  · intro idx h
    simp only [applyResult, List.length_append, List.length_singleton] at h
    by_cases hidx : idx < s.results.length
    · have : (applyResult s i r).results.get ⟨idx, by simp [applyResult]; omega⟩ =
          s.results.get ⟨idx, hidx⟩ := by
        simp only [applyResult, List.get_eq_getElem]
        exact List.getElem_append_left hidx
      rw [this]
      exact hget idx hidx
    · have hix : idx = s.results.length := by omega
      subst hix
      simp only [applyResult, List.get_eq_getElem]
      rw [List.getElem_append_right (Nat.le_refl _)]
      simp [hlen, hi]

theorem processGo_stateInv (pause : Nat → Bool)
    (callLLM : Nat → ChunkInfo → Except String LLMResult) (chunks : List ChunkInfo) :
    ∀ (l : List Nat) (start : Nat) (s : ProcessingState),
      l = idxList start l.length →
      s.processed_chunks = start →
      stateInv s →
      stateInv (processGo pause callLLM chunks l s).state
      ∧ (processGo pause callLLM chunks l s).state.processed_chunks ≤ start + l.length := by
  intro l
  induction l with
  | nil => intro start s _ hs hinv; simpa [processGo, hs] using hinv
  | cons i rest ih =>
      intro start s hidx hs hinv
      have hi : i = start := by
        rw [List.length_cons, idxList] at hidx
        exact (List.cons.injEq _ _ _ _).mp hidx |>.1
      have hrest : rest = idxList (start + 1) rest.length := by
        rw [List.length_cons, idxList] at hidx
        exact (List.cons.injEq _ _ _ _).mp hidx |>.2
      subst hi
      rw [processGo]
      by_cases hp : pause i
      · simp only [hp, if_true]
        refine ⟨hinv, ?_⟩
        show s.processed_chunks ≤ i + (i :: rest).length
        simp only [List.length_cons]
        omega
      · simp only [hp, Bool.false_eq_true, if_false]
        cases hc : chunks[i]? with
        | none =>
            simp only [hc]
            refine ⟨hinv, ?_⟩
            simp only [List.length_cons]
            omega
        | some chunk =>
            simp only [hc]
            cases he : callLLM i chunk with
            | error e =>
                simp only [he]
                refine ⟨hinv, ?_⟩
                simp only [List.length_cons]
                omega
            | ok r =>
                simp only [he]
                have hrec := ih (i + 1) (applyResult s i r) hrest rfl
                  (stateInv_applyResult s i r hinv hs)
                refine ⟨hrec.1, ?_⟩
                have h2 := hrec.2
                simp only [List.length_cons]
                omega

/-- What `initialize_processing` hands back: the state, and whether a fresh
state was created and persisted by `save_state` (`false` on the resume path,
which returns the loaded state without writing). -/
structure InitResult where
  state : ProcessingState
  saved_fresh : Bool
deriving DecidableEq

/-- The fresh `ProcessingState` built by `initialize_processing`
(llm_large_file_processor.py:188-200): `total_chunks` counts the chunks of
`create_chunks(file_path)` with its default `chunk_size=100000`,
`overlap=5000`. -/
def freshState (content : PyStr) (file_path file_hash model now : String) :
    ProcessingState :=
  ⟨file_path, file_hash, (create_chunks content 100000 5000).length, 0, model,
   0, [], now, now⟩

/-- Python `str.lower()` (per-character lowercasing). -/
def pyLower (s : PyStr) : PyStr := s.map Char.toLower

/-- `LargeFileProcessor.initialize_processing`
(llm_large_file_processor.py:168-205).  `calculate_file_hash` opens the file
first and raises `FileNotFoundError` for a missing file, before any state is
built; this is modelled by `file_content = none`.  The MD5 digest itself is
abstracted as the `file_hash` parameter, the state previously persisted for
that digest as `existing_state` (what `load_state` returns), the interactive
`input()` answer as `response`, and `datetime.now()` as `now`.  When a prior
state exists it is returned unchanged only if the answer lowercases to
`"y"`; any other answer falls through to building chunks, creating a fresh
state with `processed_chunks = 0` and persisting it. -/
def initialize_processing (file_content : Option PyStr)
    (existing_state : Option ProcessingState) (response : PyStr)
    (file_path file_hash model now : String) : Except String InitResult :=
  match file_content with
  | none => .error "file not found"
  | some content =>
    match existing_state with
    | some st =>
        if pyLower response = ['y'] then .ok ⟨st, false⟩
        else .ok ⟨freshState content file_path file_hash model now, true⟩
    | none => .ok ⟨freshState content file_path file_hash model now, true⟩

/-- C8 (amended): `initialize` signals not-found before creating any state
when the file is missing; when a prior state exists it is returned unchanged
— and nothing fresh is persisted — exactly when the caller confirms with an
answer lowercasing to `"y"`; on any other answer a fresh zeroed state is
built and persisted even though a prior state exists. -/
theorem initialize_spec (file_content : Option PyStr)
    (existing_state : Option ProcessingState) (response : PyStr)
    (file_path file_hash model now : String) :
    (file_content = none →
      initialize_processing file_content existing_state response
        file_path file_hash model now = .error "file not found")
    ∧ (∀ content st, file_content = some content → existing_state = some st →
        pyLower response = ['y'] →
        initialize_processing file_content existing_state response
          file_path file_hash model now = .ok ⟨st, false⟩)
    ∧ (∀ content st, file_content = some content → existing_state = some st →
        pyLower response ≠ ['y'] →
        initialize_processing file_content existing_state response
          file_path file_hash model now =
          .ok ⟨freshState content file_path file_hash model now, true⟩
        ∧ (freshState content file_path file_hash model now).processed_chunks = 0
        ∧ (freshState content file_path file_hash model now).results = []) := by
  refine ⟨?_, ?_, ?_⟩
  · intro h
    subst h
    rfl
  · intro content st hfc hex hresp
    subst hfc
    subst hex
    simp [initialize_processing, hresp]
  · intro content st hfc hex hresp
    subst hfc
    subst hex
    exact ⟨by simp [initialize_processing, hresp], rfl, rfl⟩

/-- Witness for C8 (amended): a missing file errors, and a prior state is
returned unchanged on answer `"Y"`. -/
theorem initialize_spec_witness :
    initialize_processing none (some wState1) ['y'] "f.txt" "h" "m" "t" =
      .error "file not found"
    ∧ initialize_processing (some ['a']) (some wState1) ['Y'] "f.txt" "h" "m" "t" =
        .ok ⟨wState1, false⟩ :=
  ⟨(initialize_spec none (some wState1) ['y'] "f.txt" "h" "m" "t").1 rfl,
   (initialize_spec (some ['a']) (some wState1) ['Y'] "f.txt" "h" "m" "t").2.1
     ['a'] wState1 rfl rfl (by decide)⟩

/-- Counterexample for C8 as stated: with a prior state present
(`processedChunks = 1`) but the interactive answer `"n"`, `initialize` does
NOT return the prior state unchanged — it creates and persists a fresh state
with `processedChunks = 0`. -/
theorem initialize_resume_cex :
    initialize_processing (some ['a']) (some wState1) ['n'] "f.txt" "h" "m" "t" =
      .ok ⟨freshState ['a'] "f.txt" "h" "m" "t", true⟩
    ∧ (freshState ['a'] "f.txt" "h" "m" "t").processed_chunks ≠
        wState1.processed_chunks
    ∧ initialize_processing (some ['a']) (some wState1) ['n'] "f.txt" "h" "m" "t" ≠
        .ok ⟨wState1, false⟩ := by
  have hn : pyLower ['n'] ≠ ['y'] := by decide
  have h1 : initialize_processing (some ['a']) (some wState1) ['n'] "f.txt" "h" "m" "t" =
      .ok ⟨freshState ['a'] "f.txt" "h" "m" "t", true⟩ := by
    simp [initialize_processing, hn]
  refine ⟨h1, by decide, ?_⟩
  rw [h1]
  intro h
  have h2 : (freshState ['a'] "f.txt" "h" "m" "t").processed_chunks =
      wState1.processed_chunks := by
    have := congrArg (fun x => match x with
      | Except.ok r => r.state.processed_chunks
      | Except.error _ => 7) h
    simpa using this
  exact absurd h2 (by decide)

/-- The demo-mode branch of `_call_llm_api` (integrated_processor.py:339-347,
`api_client is None`): no network call, `input_tokens` is the chunk's token
estimate, 500 output tokens, and the cost comes from
`ModelPricing.estimate_cost` (which raises inside the `try` for an unknown
model, surfacing as a chunk failure). -/
def demo_call (model : String) (chunk : ChunkInfo) : Except String LLMResult :=
  match ModelPricing.estimate_cost model chunk.token_estimate 500 with
  | .error e => .error e
  | .ok cost =>
      .ok ⟨"[Demo] Processed chunk " ++ toString chunk.index,
           chunk.token_estimate, 500, cost⟩

theorem idxList_length : ∀ (k start : Nat), (idxList start k).length = k := by
  intro k
  induction k with
  | zero => intro start; rfl
  | succ n ih => intro start; simp [idxList, ih]

/-- C2 (amended): the invariant `results.length = processedChunks` and
`results[i].chunkIndex = i` holds for the freshly initialized state and is
preserved by every engine run (hence by every step: any intermediate state is
the exit state of the run that pauses or fails there, and the theorem
quantifies over all pause valuations and clients); `processedChunks` never
exceeds the length of the chunk list the engine actually iterates.  It can
however exceed the recorded `totalChunks`, since `initialize_processing`
counts `create_chunks(content, 100000, 5000)` while `process_file` feeds the
engine `_create_smart_chunks(extract(content), 80000, 4000)` — see the
counterexample. -/
theorem state_invariant_preserved (content : PyStr) (response : PyStr)
    (fp fh model now : String) (pause : Nat → Bool)
    (callLLM : Nat → ChunkInfo → Except String LLMResult)
    (chunks : List ChunkInfo) (s : ProcessingState)
    (hinv : stateInv s) :
    (∀ r, initialize_processing (some content) none response fp fh model now =
        .ok r → stateInv r.state)
    ∧ stateInv (process_chunks pause callLLM chunks s).state
    ∧ (s.processed_chunks ≤ chunks.length →
        (process_chunks pause callLLM chunks s).state.processed_chunks ≤
          chunks.length) := by
  have hgo := processGo_stateInv pause callLLM chunks
    (idxList s.processed_chunks (chunks.length - s.processed_chunks))
    s.processed_chunks s (by rw [idxList_length]) rfl hinv
  refine ⟨?_, ?_, ?_⟩
  · intro r hr
    have hr2 : (⟨freshState content fp fh model now, true⟩ : InitResult) = r := by
      simpa [initialize_processing] using hr
    subst hr2
    exact ⟨rfl, fun i h => absurd h (by simp [freshState])⟩
  · exact hgo.1
  · intro hle
    have h2 := hgo.2
    rw [idxList_length] at h2
    rw [process_chunks]
    omega

/-- Witness for C2 (amended): the invariant holds after running the demo
client over both chunks of the concrete two-chunk list from the empty state. -/
theorem state_invariant_preserved_witness :
    stateInv (process_chunks (fun _ => false)
      (fun _ c => demo_call "claude-haiku-4" c) wChunks wState0).state
    ∧ (process_chunks (fun _ => false)
        (fun _ c => demo_call "claude-haiku-4" c) wChunks wState0).state.processed_chunks ≤
        wChunks.length :=
  ⟨(state_invariant_preserved [] [] "f" "h" "m" "t" (fun _ => false)
      (fun _ c => demo_call "claude-haiku-4" c) wChunks wState0
      ⟨rfl, fun i h => absurd h (by simp [wState0])⟩).2.1,
   (state_invariant_preserved [] [] "f" "h" "m" "t" (fun _ => false)
      (fun _ c => demo_call "claude-haiku-4" c) wChunks wState0
      ⟨rfl, fun i h => absurd h (by simp [wState0])⟩).2.2 (Nat.zero_le _)⟩

/-- Counterexample for C2 as stated: run the pipeline of `process_file` on an
empty text file in demo mode.  `initialize_processing` records `totalChunks =
0` (the basic splitter makes no chunk of empty content), but the engine
iterates the smart chunk list built from the extracted content, which contains
one (empty-text) chunk; after the run `processedChunks = 1 > 0 = totalChunks`,
refuting `processedChunks ≤ totalChunks`. -/
theorem processed_exceeds_total_cex :
    initialize_processing (some []) none [] "f.txt" "h" "claude-haiku-4" "t" =
      .ok ⟨freshState [] "f.txt" "h" "claude-haiku-4" "t", true⟩
    ∧ (freshState [] "f.txt" "h" "claude-haiku-4" "t").total_chunks = 0
    ∧ (create_smart_chunks (extract_from_text []) 80000 4000).length = 1
    ∧ (process_chunks (fun _ => false) (fun _ c => demo_call "claude-haiku-4" c)
        (create_smart_chunks (extract_from_text []) 80000 4000)
        (freshState [] "f.txt" "h" "claude-haiku-4" "t")).state.processed_chunks = 1
    ∧ ¬ ((process_chunks (fun _ => false) (fun _ c => demo_call "claude-haiku-4" c)
        (create_smart_chunks (extract_from_text []) 80000 4000)
        (freshState [] "f.txt" "h" "claude-haiku-4" "t")).state.processed_chunks ≤
        (process_chunks (fun _ => false) (fun _ c => demo_call "claude-haiku-4" c)
        (create_smart_chunks (extract_from_text []) 80000 4000)
        (freshState [] "f.txt" "h" "claude-haiku-4" "t")).state.total_chunks) := by
  refine ⟨rfl, by decide, by decide, by decide, by decide⟩

/-- The `_create_smart_chunks` loop state instrumented with the overlap text
that seeded each chunk: every closed chunk is paired with the carry its buffer
started from (`[]` for the first chunk), and `carry` is the seed of the chunk
currently accumulating.  The chunk fields are computed exactly as in
`smartStep`; the carry is bookkeeping only (see
`create_smart_chunks_eq_carries`). -/
structure BuildState where
  chunks : List (ChunkInfo × PyStr)
  current_text : List PyStr
  current_images : List ImageRef
  current_size : Nat
  chunk_index : Nat
  start_position : Nat
  carry : PyStr
deriving DecidableEq

/-- `smartStep` with carry bookkeeping. -/
def smartStepCarry (chunk_size overlap : Nat) (st : BuildState)
    (content : ExtractedContent) : BuildState :=
  match content.content_type with
  | CKind.text =>
      let text_size := content.data.length
      let st1 :=
        if chunk_size < st.current_size + text_size ∧ st.current_text ≠ [] then
          let overlap_text := pyTailSlice (st.current_text.getLastD []) overlap
          { chunks := st.chunks ++
              [(finalize_chunk st.chunk_index st.current_text st.current_images
                  st.start_position, st.carry)],
            current_text := [overlap_text],
            current_images := [],
            current_size := overlap_text.length,
            chunk_index := st.chunk_index + 1,
            start_position := content.position,
            carry := overlap_text }
        else st
      { st1 with
          current_text := st1.current_text ++ [content.data],
          current_size := st1.current_size + text_size }
  | CKind.image =>
      { st with
          current_images := st.current_images ++
            [⟨content.position, content.data, "png"⟩],
          current_size := st.current_size + 3000 }

/-- `smartFinish` with carry bookkeeping. -/
def smartFinishCarry (st : BuildState) : List (ChunkInfo × PyStr) :=
  if st.current_text ≠ [] ∨ st.current_images ≠ [] then
    st.chunks ++
      [(finalize_chunk st.chunk_index st.current_text st.current_images
          st.start_position, st.carry)]
  else st.chunks

/-- `_create_smart_chunks` with each chunk paired with its seeding carry. -/
def create_smart_chunks_carries (contents : List ExtractedContent)
    (chunk_size overlap : Nat) : List (ChunkInfo × PyStr) :=
  smartFinishCarry (contents.foldl (smartStepCarry chunk_size overlap)
    ⟨[], [], [], 0, 0, 0, []⟩)

/-- Forgetting the carries of an instrumented state. -/
def eraseCarry (st : BuildState) : ChunkAcc :=
  ⟨st.chunks.map Prod.fst, st.current_text, st.current_images, st.current_size,
   st.chunk_index, st.start_position⟩

theorem eraseCarry_step (chunk_size overlap : Nat) (st : BuildState)
    (u : ExtractedContent) :
    eraseCarry (smartStepCarry chunk_size overlap st u) =
      smartStep chunk_size overlap (eraseCarry st) u := by
  cases hu : u.content_type with
  | text =>
      unfold smartStepCarry smartStep
      simp only [hu]
      by_cases hc : chunk_size < st.current_size + u.data.length ∧ st.current_text ≠ []
      · rw [if_pos hc, if_pos (by exact hc)]
        simp [eraseCarry]
      · rw [if_neg hc, if_neg (by exact hc)]
        simp [eraseCarry]
  | image =>
      unfold smartStepCarry smartStep
      simp only [hu]
      simp [eraseCarry]

theorem eraseCarry_foldl (chunk_size overlap : Nat) :
    ∀ (units : List ExtractedContent) (st : BuildState),
      eraseCarry (units.foldl (smartStepCarry chunk_size overlap) st) =
        units.foldl (smartStep chunk_size overlap) (eraseCarry st) := by
  intro units
  induction units with
  | nil => intro st; rfl
  | cons u us ih =>
      intro st
      simp only [List.foldl_cons, ih, eraseCarry_step]

/-- The instrumented builder computes exactly the chunks of
`_create_smart_chunks`. -/
theorem create_smart_chunks_eq_carries (contents : List ExtractedContent)
    (chunk_size overlap : Nat) :
    create_smart_chunks contents chunk_size overlap =
      (create_smart_chunks_carries contents chunk_size overlap).map Prod.fst := by
  unfold create_smart_chunks create_smart_chunks_carries smartFinish smartFinishCarry
  have h := eraseCarry_foldl chunk_size overlap contents ⟨[], [], [], 0, 0, 0, []⟩
  set stc := contents.foldl (smartStepCarry chunk_size overlap) ⟨[], [], [], 0, 0, 0, []⟩
  have h1 : contents.foldl (smartStep chunk_size overlap) ⟨[], [], [], 0, 0, 0⟩ =
      eraseCarry stc := h.symm
  rw [h1]
  simp only [eraseCarry]
  by_cases hcond : stc.current_text ≠ [] ∨ stc.current_images ≠ []
  · rw [if_pos hcond, if_pos hcond]
    simp
  · rw [if_neg hcond, if_neg hcond]

/-- The text of a chunk, `''` when absent (text-only runs always set it). -/
def chunkTextD (c : ChunkInfo) : PyStr := c.text_content.getD []

/-- Concatenate chunk texts, dropping from each its leading carried-over
overlap (the seed recorded by the instrumented builder). -/
def concatDropped : List (ChunkInfo × PyStr) → PyStr
  | [] => []
  | p :: rest => (chunkTextD p.1).drop p.2.length ++ concatDropped rest

/-- The reconstruction of C3: the first chunk's text in full, every later
chunk's text with its leading carried-over overlap removed. -/
def reconstruct : List (ChunkInfo × PyStr) → PyStr
  | [] => []
  | p :: rest => chunkTextD p.1 ++ concatDropped rest

/-- Each recorded carry is a prefix of its own chunk's text and a suffix of
the previous chunk's text (it is genuinely carried-over context). -/
def chainOK : (ChunkInfo × PyStr) → List (ChunkInfo × PyStr) → Prop
  | _, [] => True
  | p, q :: rest =>
      (∃ pre, chunkTextD p.1 = pre ++ q.2)
      ∧ (∃ suf, chunkTextD q.1 = q.2 ++ suf)
      ∧ chainOK q rest

/-- The first chunk carries nothing; later carries satisfy `chainOK`. -/
def carriesOK : List (ChunkInfo × PyStr) → Prop
  | [] => True
  | p :: rest => p.2 = [] ∧ chainOK p rest

/-- A dummy pair for `getLastD` on chunk lists known to be non-empty. -/
def dummyChunk : ChunkInfo × PyStr := (⟨0, "text", none, none, 0, 0⟩, [])

theorem joinSep_cons (a : PyStr) (l : List PyStr) (hl : l ≠ []) :
    joinSep (a :: l) = a ++ SEP ++ joinSep l := by
  cases l with
  | nil => exact absurd rfl hl
  | cons b bs => rfl

theorem joinSep_append (l1 l2 : List PyStr) (h1 : l1 ≠ []) (h2 : l2 ≠ []) :
    joinSep (l1 ++ l2) = joinSep l1 ++ SEP ++ joinSep l2 := by
  induction l1 with
  | nil => exact absurd rfl h1
  | cons a as ih =>
      cases as with
      | nil =>
          rw [List.singleton_append, joinSep_cons a l2 h2]
          rfl
      | cons b bs =>
          rw [List.cons_append, joinSep_cons a ((b :: bs) ++ l2) (by simp),
            ih (by simp), joinSep_cons a (b :: bs) (by simp)]
          simp [List.append_assoc]

theorem getLastD_irrel (l : List PyStr) (h : l ≠ []) (d1 d2 : PyStr) :
    l.getLastD d1 = l.getLastD d2 := by
  cases l with
  | nil => exact absurd rfl h
  | cons a as => rw [List.getLastD_cons, List.getLastD_cons]

theorem joinSep_ends_with_last (l : List PyStr) (h : l ≠ []) :
    ∃ pre, joinSep l = pre ++ l.getLastD [] := by
  induction l with
  | nil => exact absurd rfl h
  | cons a as ih =>
      cases as with
      | nil => exact ⟨[], rfl⟩
      | cons b bs =>
          obtain ⟨pre, hpre⟩ := ih (by simp)
          refine ⟨a ++ SEP ++ pre, ?_⟩
          have hL : (a :: b :: bs).getLastD [] = (b :: bs).getLastD [] := by
            rw [List.getLastD_cons]
            exact getLastD_irrel (b :: bs) (by simp) a []
          rw [hL, joinSep_cons a (b :: bs) (by simp), hpre]
          simp [List.append_assoc]

theorem pyTailSlice_suffix (s : PyStr) (k : Nat) :
    ∃ pre, s = pre ++ pyTailSlice s k := by
  unfold pyTailSlice
  by_cases h : k = 0
  · exact ⟨[], by simp [h]⟩
  · rw [if_neg h]
    exact ⟨s.take (s.length - k), (List.take_append_drop _ s).symm⟩

/-- The seed `current_text[-1][-overlap:]` is a suffix of the joined chunk
text. -/
theorem joinSep_tail_suffix (texts : List PyStr) (ov : Nat) (h : texts ≠ []) :
    ∃ pre, joinSep texts = pre ++ pyTailSlice (texts.getLastD []) ov := by
  obtain ⟨p1, hp1⟩ := joinSep_ends_with_last texts h
  obtain ⟨p2, hp2⟩ := pyTailSlice_suffix (texts.getLastD []) ov
  exact ⟨p1 ++ p2, by rw [List.append_assoc, ← hp2, ← hp1]⟩

theorem concatDropped_append (l1 l2 : List (ChunkInfo × PyStr)) :
    concatDropped (l1 ++ l2) = concatDropped l1 ++ concatDropped l2 := by
  induction l1 with
  | nil => simp [concatDropped]
  | cons p rest ih => simp [concatDropped, ih, List.append_assoc]

theorem reconstruct_append_single (l : List (ChunkInfo × PyStr))
    (p : ChunkInfo × PyStr) (h : l ≠ []) :
    reconstruct (l ++ [p]) =
      reconstruct l ++ (chunkTextD p.1).drop p.2.length := by
  cases l with
  | nil => exact absurd rfl h
  | cons q rest =>
      rw [List.cons_append, reconstruct, reconstruct, concatDropped_append]
      simp [concatDropped, List.append_assoc]

theorem chainOK_append (p q : ChunkInfo × PyStr) :
    ∀ (l : List (ChunkInfo × PyStr)),
      chainOK p l →
      (∃ pre, chunkTextD ((l.getLastD p).1) = pre ++ q.2) →
      (∃ suf, chunkTextD q.1 = q.2 ++ suf) →
      chainOK p (l ++ [q]) := by
  intro l
  induction l generalizing p with
  | nil => intro _ h1 h2; exact ⟨h1, h2, trivial⟩
  | cons r rest ih =>
      intro hch hlast hsuf
      obtain ⟨ha, hb, hc⟩ := hch
      rw [List.getLastD_cons] at hlast
      exact ⟨ha, hb, ih r hc hlast hsuf⟩

theorem chunkTextD_finalize (index : Nat) (texts : List PyStr)
    (images : List ImageRef) (pos : Nat) (h : texts ≠ []) :
    chunkTextD (finalize_chunk index texts images pos) = joinSep texts := by
  simp [finalize_chunk, chunkTextD, h]

/-- Loop invariant of the instrumented smart chunker on text-only input,
after consuming the units `done`: no images are pending; either no chunk has
been closed yet and the buffer holds exactly the payloads of `done`, or the
buffer is the current carry followed by the payloads of the not-yet-closed
suffix `newUnits` of `done`, the closed chunks reconstruct exactly the closed
prefix, their carries are genuine carried-over context (`carriesOK`), and the
current carry is a suffix of the last closed chunk's text. -/
def buildInv (done : List ExtractedContent) (st : BuildState) : Prop :=
  st.current_images = []
  ∧ ((st.chunks = [] ∧ st.carry = [] ∧ st.current_text = done.map (fun u => u.data))
     ∨ (∃ processed newUnits,
          done = processed ++ newUnits
          ∧ processed ≠ [] ∧ newUnits ≠ []
          ∧ st.current_text = st.carry :: newUnits.map (fun u => u.data)
          ∧ reconstruct st.chunks = joinSep (processed.map (fun u => u.data))
          ∧ st.chunks ≠ []
          ∧ carriesOK st.chunks
          ∧ (∃ pre, chunkTextD ((st.chunks.getLastD dummyChunk).1) = pre ++ st.carry)))

/-- Closing the currently accumulating chunk of a state in the second branch
of `buildInv` extends the reconstruction by exactly the new units and keeps
the carries well-formed. -/
theorem close_right (st : BuildState)
    (done processed newUnits : List ExtractedContent)
    (hdone : done = processed ++ newUnits)
    (hpne : processed ≠ []) (hnne : newUnits ≠ [])
    (hct : st.current_text = st.carry :: newUnits.map (fun u => u.data))
    (hrec : reconstruct st.chunks = joinSep (processed.map (fun u => u.data)))
    (hchne : st.chunks ≠ [])
    (hcar : carriesOK st.chunks)
    (hlast : ∃ pre, chunkTextD ((st.chunks.getLastD dummyChunk).1) = pre ++ st.carry) :
    reconstruct (st.chunks ++
        [(finalize_chunk st.chunk_index st.current_text st.current_images
            st.start_position, st.carry)]) =
      joinSep (done.map (fun u => u.data))
    ∧ carriesOK (st.chunks ++
        [(finalize_chunk st.chunk_index st.current_text st.current_images
            st.start_position, st.carry)])
    ∧ chunkTextD (finalize_chunk st.chunk_index st.current_text st.current_images
        st.start_position) =
        st.carry ++ SEP ++ joinSep (newUnits.map (fun u => u.data)) := by
  have hctne : st.current_text ≠ [] := by rw [hct]; simp
  have hnm : newUnits.map (fun u => u.data) ≠ [] := by
    simpa using hnne
  have hpm : processed.map (fun u => u.data) ≠ [] := by
    simpa using hpne
  have htext : chunkTextD (finalize_chunk st.chunk_index st.current_text
      st.current_images st.start_position) = joinSep st.current_text :=
    chunkTextD_finalize _ _ _ _ hctne
  have hj : joinSep st.current_text =
      st.carry ++ SEP ++ joinSep (newUnits.map (fun u => u.data)) := by
    rw [hct]
    exact joinSep_cons _ _ hnm
  have htext2 := htext.trans hj
  refine ⟨?_, ?_, htext2⟩
  · rw [reconstruct_append_single st.chunks _ hchne, htext2, hrec]
    rw [List.append_assoc (st.carry), List.drop_left]
    rw [← List.append_assoc, ← joinSep_append _ _ hpm hnm, ← List.map_append, ← hdone]
  · cases hch : st.chunks with
    | nil => exact absurd hch hchne
    | cons c rest =>
        rw [hch] at hcar hlast
        obtain ⟨hc2, hchain⟩ := hcar
        rw [List.getLastD_cons] at hlast
        refine ⟨hc2, chainOK_append c _ rest hchain hlast ?_⟩
        exact ⟨SEP ++ joinSep (newUnits.map (fun u => u.data)), by
          rw [htext2, List.append_assoc]⟩

theorem buildInv_step (cs ov : Nat) (u : ExtractedContent)
    (done : List ExtractedContent) (st : BuildState)
    (hu : u.content_type = CKind.text) (hinv : buildInv done st) :
    buildInv (done ++ [u]) (smartStepCarry cs ov st u) := by
  obtain ⟨himg, hcase⟩ := hinv
  by_cases hsplit : cs < st.current_size + u.data.length ∧ st.current_text ≠ []
  · have hctne : st.current_text ≠ [] := hsplit.2
    have hstep : smartStepCarry cs ov st u =
        ⟨st.chunks ++ [(finalize_chunk st.chunk_index st.current_text
            st.current_images st.start_position, st.carry)],
         [pyTailSlice (st.current_text.getLastD []) ov, u.data],
         [],
         (pyTailSlice (st.current_text.getLastD []) ov).length + u.data.length,
         st.chunk_index + 1,
         u.position,
         pyTailSlice (st.current_text.getLastD []) ov⟩ := by
      unfold smartStepCarry
      simp only [hu]
      rw [if_pos hsplit]
      rfl
    rw [hstep]
    have hdone_ne : done ≠ [] := by
      rcases hcase with ⟨hch, hca, hct⟩ | ⟨proc, newU, hdone, hpne, hnne, _⟩
      · rw [hct] at hctne
        simpa using hctne
      · rw [hdone]
        simp [hpne]
    have hlast2 : ∃ pre,
        chunkTextD (finalize_chunk st.chunk_index st.current_text
          st.current_images st.start_position) =
          pre ++ pyTailSlice (st.current_text.getLastD []) ov := by
      rw [chunkTextD_finalize _ _ _ _ hctne]
      exact joinSep_tail_suffix st.current_text ov hctne
    rcases hcase with ⟨hch, hca, hct⟩ | ⟨proc, newU, hdone, hpne, hnne, hct, hrec, hchne, hcar, hlast⟩
    · refine ⟨rfl, Or.inr ⟨done, [u], rfl, hdone_ne, by simp, rfl, ?_, by simp, ?_, ?_⟩⟩
      · show reconstruct (st.chunks ++ [_]) = _
        rw [hch, List.nil_append, reconstruct]
        rw [concatDropped, List.append_nil]
        rw [chunkTextD_finalize _ _ _ _ hctne, hct]
      · show carriesOK (st.chunks ++ [_])
        rw [hch, List.nil_append]
        exact ⟨hca, trivial⟩
      · simp only [List.getLastD_concat]
        exact hlast2
    · have hclose := close_right st done proc newU hdone hpne hnne hct hrec hchne hcar hlast
      refine ⟨rfl, Or.inr ⟨done, [u], rfl, hdone_ne, by simp, rfl, ?_, by simp, ?_, ?_⟩⟩
      · exact hclose.1
      · exact hclose.2.1
      · simp only [List.getLastD_concat]
        exact hlast2
  · have hstep : smartStepCarry cs ov st u =
        { st with
            current_text := st.current_text ++ [u.data],
            current_size := st.current_size + u.data.length } := by
      unfold smartStepCarry
      simp only [hu]
      rw [if_neg hsplit]
    rw [hstep]
    rcases hcase with ⟨hch, hca, hct⟩ | ⟨proc, newU, hdone, hpne, hnne, hct, hrec, hchne, hcar, hlast⟩
    · exact ⟨himg, Or.inl ⟨hch, hca, by rw [hct]; simp⟩⟩
    · refine ⟨himg, Or.inr ⟨proc, newU ++ [u], by rw [hdone, List.append_assoc],
        hpne, by simp, ?_, hrec, hchne, hcar, hlast⟩⟩
      rw [hct]
      simp

theorem buildInv_foldl (cs ov : Nat) :
    ∀ (units done : List ExtractedContent) (st : BuildState),
      (∀ u ∈ units, u.content_type = CKind.text) →
      buildInv done st →
      buildInv (done ++ units) (units.foldl (smartStepCarry cs ov) st) := by
  intro units
  induction units with
  | nil => intro done st _ hinv; simpa using hinv
  | cons u us ih =>
      intro done st hall hinv
      have h1 := buildInv_step cs ov u done st (hall u (by simp)) hinv
      have h2 := ih (done ++ [u]) _ (fun v hv => hall v (by simp [hv])) h1
      simpa [List.foldl_cons, List.append_assoc] using h2

theorem buildFinish_inv (done : List ExtractedContent) (st : BuildState)
    (hinv : buildInv done st) :
    reconstruct (smartFinishCarry st) = joinSep (done.map (fun u => u.data))
    ∧ carriesOK (smartFinishCarry st) := by
  obtain ⟨himg, hcase⟩ := hinv
  unfold smartFinishCarry
  rcases hcase with ⟨hch, hca, hct⟩ |
    ⟨proc, newU, hdone, hpne, hnne, hct, hrec, hchne, hcar, hlast⟩
  · by_cases hdone0 : done = []
    · subst hdone0
      have hct0 : st.current_text = [] := by simpa using hct
      rw [if_neg (by simp [hct0, himg])]
      rw [hch]
      exact ⟨rfl, trivial⟩
    · have hctne : st.current_text ≠ [] := by
        rw [hct]
        simpa using hdone0
      rw [if_pos (Or.inl hctne)]
      rw [hch, List.nil_append]
      constructor
      · rw [reconstruct, concatDropped, List.append_nil,
          chunkTextD_finalize _ _ _ _ hctne, hct]
      · exact ⟨hca, trivial⟩
  · have hctne : st.current_text ≠ [] := by rw [hct]; simp
    rw [if_pos (Or.inl hctne)]
    have hclose := close_right st done proc newU hdone hpne hnne hct hrec
      hchne hcar hlast
    exact ⟨hclose.1, hclose.2.1⟩

/-- C3: for every sequence of text-only content units, concatenating the
produced chunks' texts in index order while removing from every chunk except
the first its leading carried-over overlap (the seed recorded by the
instrumented builder, proven by `carriesOK` to be a prefix of its own chunk's
text and a suffix of the previous chunk's text) yields exactly the original
text, namely the unit payloads joined by the `'\n\n'` separator.  The third
conjunct ties the instrumented builder to `_create_smart_chunks` itself. -/
theorem chunk_roundtrip (units : List ExtractedContent) (chunk_size overlap : Nat)
    (hall : ∀ u ∈ units, u.content_type = CKind.text) :
    reconstruct (create_smart_chunks_carries units chunk_size overlap) =
      joinSep (units.map (fun u => u.data))
    ∧ carriesOK (create_smart_chunks_carries units chunk_size overlap)
    ∧ create_smart_chunks units chunk_size overlap =
        (create_smart_chunks_carries units chunk_size overlap).map Prod.fst := by
  have h0 : buildInv [] ⟨[], [], [], 0, 0, 0, []⟩ := ⟨rfl, Or.inl ⟨rfl, rfl, rfl⟩⟩
  have hf := buildInv_foldl chunk_size overlap units [] ⟨[], [], [], 0, 0, 0, []⟩
    hall h0
  rw [List.nil_append] at hf
  have hfin := buildFinish_inv units _ hf
  exact ⟨hfin.1, hfin.2, create_smart_chunks_eq_carries units chunk_size overlap⟩

/-- Two text units that split into two overlapping chunks. -/
def C3units : List ExtractedContent :=
  [⟨0, CKind.text, ['a', 'b']⟩, ⟨1, CKind.text, ['c', 'd']⟩]

/-- Witness for C3 on a concrete two-unit input chunked at size 3 with
overlap 1 (which produces two chunks, the second seeded with `"b"`). -/
theorem chunk_roundtrip_witness :
    reconstruct (create_smart_chunks_carries C3units 3 1) =
      joinSep (C3units.map (fun u => u.data))
    ∧ carriesOK (create_smart_chunks_carries C3units 3 1)
    ∧ create_smart_chunks C3units 3 1 =
        (create_smart_chunks_carries C3units 3 1).map Prod.fst :=
  chunk_roundtrip C3units 3 1 (by decide)

/-- The text payloads of a unit sequence, in order (what the loop accumulates
into `current_text` while no split occurs). -/
def textPayloads (l : List ExtractedContent) : List PyStr :=
  l.filterMap (fun u =>
    match u.content_type with
    | CKind.text => some u.data
    | CKind.image => none)

/-- The image records of a unit sequence, in order (what the loop accumulates
into `current_images` while no split occurs). -/
def imageRefs (l : List ExtractedContent) : List ImageRef :=
  l.filterMap (fun u =>
    match u.content_type with
    | CKind.image => some (⟨u.position, u.data, "png"⟩ : ImageRef)
    | CKind.text => none)

/-- The size pressure of one unit in the running counter of
`_create_smart_chunks`: its character count for text, the fixed heuristic
3000 for an image. -/
def unitSize (u : ExtractedContent) : Nat :=
  match u.content_type with
  | CKind.text => u.data.length
  | CKind.image => 3000

/-- Total size pressure of a unit sequence. -/
def sizeSum (l : List ExtractedContent) : Nat := (l.map unitSize).sum

/-- The loop state after accumulating `done` without ever splitting. -/
def accOf (done : List ExtractedContent) : ChunkAcc :=
  ⟨[], textPayloads done, imageRefs done, sizeSum done, 0, 0⟩

theorem sizeSum_append (l1 l2 : List ExtractedContent) :
    sizeSum (l1 ++ l2) = sizeSum l1 + sizeSum l2 := by
  simp [sizeSum]

theorem sizeSum_cons (u : ExtractedContent) (l : List ExtractedContent) :
    sizeSum (u :: l) = unitSize u + sizeSum l := by
  simp [sizeSum]

theorem textPayloads_append (l1 l2 : List ExtractedContent) :
    textPayloads (l1 ++ l2) = textPayloads l1 ++ textPayloads l2 := by
  simp [textPayloads]

theorem imageRefs_append (l1 l2 : List ExtractedContent) :
    imageRefs (l1 ++ l2) = imageRefs l1 ++ imageRefs l2 := by
  simp [imageRefs]

theorem textPayloads_single_text (u : ExtractedContent)
    (hu : u.content_type = CKind.text) : textPayloads [u] = [u.data] := by
  simp [textPayloads, hu]

theorem textPayloads_single_image (u : ExtractedContent)
    (hu : u.content_type = CKind.image) : textPayloads [u] = [] := by
  simp [textPayloads, hu]

theorem imageRefs_single_text (u : ExtractedContent)
    (hu : u.content_type = CKind.text) : imageRefs [u] = [] := by
  simp [imageRefs, hu]

theorem imageRefs_single_image (u : ExtractedContent)
    (hu : u.content_type = CKind.image) :
    imageRefs [u] = [⟨u.position, u.data, "png"⟩] := by
  simp [imageRefs, hu]

theorem unitSize_text (u : ExtractedContent) (hu : u.content_type = CKind.text) :
    unitSize u = u.data.length := by
  simp [unitSize, hu]

theorem unitSize_image (u : ExtractedContent) (hu : u.content_type = CKind.image) :
    unitSize u = 3000 := by
  simp [unitSize, hu]

/-- While the total size pressure stays within `chunk_size`, the
`_create_smart_chunks` loop never splits: it just accumulates text, images and
size. -/
theorem smart_no_split (cs ov : Nat) :
    ∀ (units done : List ExtractedContent),
      sizeSum (done ++ units) ≤ cs →
      units.foldl (smartStep cs ov) (accOf done) = accOf (done ++ units) := by
  intro units
  induction units with
  | nil => intro done _; simp
  | cons u us ih =>
      intro done hsz
      rw [List.foldl_cons]
      have hsz2 : sizeSum done + unitSize u + sizeSum us ≤ cs := by
        rw [sizeSum_append, sizeSum_cons] at hsz
        omega
      have hstep : smartStep cs ov (accOf done) u = accOf (done ++ [u]) := by
        cases hu : u.content_type with
        | text =>
            have hno : ¬ (cs < (accOf done).current_size + u.data.length
                ∧ (accOf done).current_text ≠ []) := by
              intro hcon
              have h1 := hcon.1
              have h2 : (accOf done).current_size = sizeSum done := rfl
              rw [h2] at h1
              rw [unitSize_text u hu] at hsz2
              omega
            unfold smartStep
            simp only [hu]
            rw [if_neg hno]
            simp [accOf, ChunkAcc.mk.injEq, textPayloads_append,
              textPayloads_single_text u hu, imageRefs_append,
              imageRefs_single_text u hu, sizeSum_append, sizeSum_cons,
              unitSize_text u hu, sizeSum]
        | image =>
            unfold smartStep
            simp only [hu]
            simp [accOf, ChunkAcc.mk.injEq, textPayloads_append,
              textPayloads_single_image u hu, imageRefs_append,
              imageRefs_single_image u hu, sizeSum_append, sizeSum_cons,
              unitSize_image u hu, sizeSum]
      rw [hstep]
      have hrec := ih (done ++ [u]) (by rw [List.append_assoc]; simpa using hsz)
      rw [hrec, List.append_assoc, List.singleton_append]

/-- C4 (amended): when adding a text unit would overflow a non-empty buffer,
the chunk is closed and the next buffer is seeded with the trailing
`overlapChars` characters of the **last accumulated text unit**
(`current_text[-1][-overlap:]`, the whole unit when it is shorter than
`overlapChars`) — a suffix of the just-closed chunk's text (last conjunct) but
in general not the trailing `overlapChars` of that whole text — the pending
image list is reset to empty, and the new chunk's `sourcePosition` is the
position of the unit that triggered the split.  Stated for a single split:
`pre` fits within `chunk_size`, the text unit `trigger` overflows it. -/
theorem overlap_seed_amended (pre : List ExtractedContent)
    (trigger : ExtractedContent) (cs ov : Nat)
    (htr : trigger.content_type = CKind.text)
    (hne : textPayloads pre ≠ [])
    (hfit : sizeSum pre ≤ cs)
    (hover : cs < sizeSum pre + trigger.data.length) :
    create_smart_chunks (pre ++ [trigger]) cs ov =
      [finalize_chunk 0 (textPayloads pre) (imageRefs pre) 0,
       finalize_chunk 1
         [pyTailSlice ((textPayloads pre).getLastD []) ov, trigger.data]
         [] trigger.position]
    ∧ (finalize_chunk 1
         [pyTailSlice ((textPayloads pre).getLastD []) ov, trigger.data]
         [] trigger.position).image_data = none
    ∧ (finalize_chunk 1
         [pyTailSlice ((textPayloads pre).getLastD []) ov, trigger.data]
         [] trigger.position).original_position = trigger.position
    ∧ (∃ p, chunkTextD (finalize_chunk 0 (textPayloads pre) (imageRefs pre) 0) =
        p ++ pyTailSlice ((textPayloads pre).getLastD []) ov) := by
  have hyes : cs < (accOf pre).current_size + trigger.data.length
      ∧ (accOf pre).current_text ≠ [] := ⟨hover, hne⟩
  have hstep : smartStep cs ov (accOf pre) trigger =
      ⟨[finalize_chunk 0 (textPayloads pre) (imageRefs pre) 0],
       [pyTailSlice ((textPayloads pre).getLastD []) ov, trigger.data],
       [],
       (pyTailSlice ((textPayloads pre).getLastD []) ov).length +
         trigger.data.length,
       1, trigger.position⟩ := by
    unfold smartStep
    simp only [htr]
    rw [if_pos hyes]
    rfl
  refine ⟨?_, by simp [finalize_chunk], rfl, ?_⟩
  · have hinit : (⟨[], [], [], 0, 0, 0⟩ : ChunkAcc) = accOf [] := rfl
    unfold create_smart_chunks
    rw [hinit, List.foldl_append,
      smart_no_split cs ov pre [] (by simpa using hfit)]
    rw [List.nil_append, List.foldl_cons, List.foldl_nil, hstep]
    unfold smartFinish
    rw [if_pos (Or.inl (by simp))]
    rfl
  · rw [chunkTextD_finalize _ _ _ _ hne]
    exact joinSep_tail_suffix (textPayloads pre) ov hne

/-- Units for the C4 witness and counterexample: two short text units then an
overflowing one; the last accumulated unit `"d"` is shorter than the
overlap. -/
def C4pre : List ExtractedContent :=
  [⟨0, CKind.text, ['a', 'b', 'c']⟩, ⟨1, CKind.text, ['d']⟩]

def C4trigger : ExtractedContent := ⟨2, CKind.text, ['e', 'f', 'g']⟩

/-- Witness for C4 (amended) at `chunk_size = 5`, `overlap = 2`: the split on
`"efg"` closes the chunk `"abc\n\nd"` and seeds the next one with
`"d"[-2:] = "d"`. -/
theorem overlap_seed_amended_witness :
    create_smart_chunks (C4pre ++ [C4trigger]) 5 2 =
      [finalize_chunk 0 (textPayloads C4pre) (imageRefs C4pre) 0,
       finalize_chunk 1
         [pyTailSlice ((textPayloads C4pre).getLastD []) 2, C4trigger.data]
         [] C4trigger.position]
    ∧ (finalize_chunk 1
         [pyTailSlice ((textPayloads C4pre).getLastD []) 2, C4trigger.data]
         [] C4trigger.position).image_data = none
    ∧ (finalize_chunk 1
         [pyTailSlice ((textPayloads C4pre).getLastD []) 2, C4trigger.data]
         [] C4trigger.position).original_position = C4trigger.position
    ∧ (∃ p, chunkTextD (finalize_chunk 0 (textPayloads C4pre) (imageRefs C4pre) 0) =
        p ++ pyTailSlice ((textPayloads C4pre).getLastD []) 2) :=
  overlap_seed_amended C4pre C4trigger 5 2 (by decide) (by decide) (by decide)
    (by decide)

/-- Counterexample for C4 as stated: with `chunk_size = 6`, `overlap = 4`, the
chunk `"abc\n\nd"` is closed when `"efghij"` arrives.  The claim requires the
next buffer to be seeded with the trailing 4 characters of the entire closed
chunk text, `"c\n\nd"`; the code seeds it with `"d"[-4:] = "d"`, so the second
chunk's text `"d\n\nefghij"` does not start with `"c\n\nd"`. -/
theorem overlap_seed_cex :
    create_smart_chunks
        [⟨0, CKind.text, ['a', 'b', 'c']⟩, ⟨1, CKind.text, ['d']⟩,
         ⟨2, CKind.text, ['e', 'f', 'g', 'h', 'i', 'j']⟩] 6 4 =
      [finalize_chunk 0 [['a', 'b', 'c'], ['d']] [] 0,
       finalize_chunk 1 [['d'], ['e', 'f', 'g', 'h', 'i', 'j']] [] 2]
    ∧ pyTailSlice (chunkTextD (finalize_chunk 0 [['a', 'b', 'c'], ['d']] [] 0)) 4 =
        ['c', '\n', '\n', 'd']
    ∧ (chunkTextD (finalize_chunk 1 [['d'], ['e', 'f', 'g', 'h', 'i', 'j']] [] 2)).take 4 ≠
        ['c', '\n', '\n', 'd'] := by
  refine ⟨by decide, by decide, by decide⟩
